import Mathlib

/-!
Verification development for the file2md-demo web service.

The service stages an uploaded document, invokes an external converter,
serves derived image artifacts through a sanitized, session-scoped,
time-limited endpoint, packages results into a zip archive, and reclaims
old files with an age-based sweeper.

JavaScript strings are modelled as lists of characters (`JStr`); the Node
path helpers (`path.basename`, `path.join`, `path.resolve`,
`path.normalize` for POSIX paths) are given executable models below and the
route handlers are translated on top of them.  Filesystem state is passed
explicitly: an existence oracle for the serving route, explicit directory
listings for the sweeper.
-/

set_option maxHeartbeats 1000000

abbrev JStr := List Char

/-- Embed a Lean string literal as a modelled JavaScript string. -/
def jstr (s : String) : JStr := s.data

/-- Decimal digit test, as in the character class of the regex `[0-9]`. -/
def isDigitC (c : Char) : Bool := 48 ≤ c.toNat && c.toNat ≤ 57

/-- Alphanumeric test, the character class `[a-zA-Z0-9]`. -/
def isAlnumC (c : Char) : Bool :=
  isDigitC c || (97 ≤ c.toNat && c.toNat ≤ 122) || (65 ≤ c.toNat && c.toNat ≤ 90)

/-- Lower-case base-36 alphabet `[0-9a-z]`, the range of
`Number.prototype.toString(36)` digits. -/
def isBase36C (c : Char) : Bool := isDigitC c || (97 ≤ c.toNat && c.toNat ≤ 122)

/-- `s` holds no path separator. -/
def noSlash (s : JStr) : Bool := s.all (fun c => c ≠ '/')

/-- JavaScript `s.includes("..")`: some position of `s` starts with two dots. -/
def containsDotDot : JStr → Bool
  | [] => false
  | c :: rest => (c = '.' && rest.head? = some '.') || containsDotDot rest

/-- Split a path string at every separator, keeping empty segments, as the
segment decomposition underlying the Node path routines.  The result is
always nonempty and rejoining with separators recovers the input. -/
def splitSlash : JStr → List JStr
  | [] => [[]]
  | c :: rest =>
    match splitSlash rest with
    | [] => [[]]
    | seg :: segs => if c = '/' then [] :: seg :: segs else (c :: seg) :: segs

/-- Rejoin segments with the path separator. -/
def intercalateSlash : List JStr → JStr
  | [] => []
  | [x] => x
  | x :: y :: rest => x ++ '/' :: intercalateSlash (y :: rest)

/-- Normalization pass over the segment list of a path: empty and `.`
segments are dropped, and `..` pops the previous segment (kept at the front
of a relative path, dropped at the root of an absolute one).  This is the
resolution loop of Node's `path.posix.normalize`. -/
def normSegs (abs : Bool) : List JStr → List JStr → List JStr
  | acc, [] => acc.reverse
  | acc, seg :: rest =>
    if seg = [] ∨ seg = ['.'] then normSegs abs acc rest
    else if seg = ['.', '.'] then
      match acc with
      | [] => if abs then normSegs abs [] rest else normSegs abs [['.', '.']] rest
      | top :: tl =>
        if top = ['.', '.'] then normSegs abs (['.', '.'] :: top :: tl) rest
        else normSegs abs tl rest
    else normSegs abs (seg :: acc) rest

/-- Node `path.posix.normalize` (trailing-separator preservation is dropped;
no caller below ever passes a path with a trailing separator). -/
def normalizeP (s : JStr) : JStr :=
  let abs := s.head? = some '/'
  let body := intercalateSlash (normSegs abs [] (splitSlash s))
  if abs then '/' :: body
  else if body = [] then ['.'] else body

/-- Node `path.posix.join`: drop empty parts, join with separators,
normalize; all-empty input yields `"."`. -/
def joinP (parts : List JStr) : JStr :=
  match parts.filter (fun p => p ≠ []) with
  | [] => ['.']
  | ps => normalizeP (intercalateSlash ps)

/-- Strip trailing separators, the first step of `path.posix.basename`. -/
def dropTrailingSlashes (s : JStr) : JStr :=
  (s.reverse.dropWhile (fun c => c = '/')).reverse

/-- Node `path.posix.basename`: the last segment once trailing separators
are removed. -/
def basename (s : JStr) : JStr :=
  (splitSlash (dropTrailingSlashes s)).getLastD []

/-- Node `path.posix.resolve` with a single argument against a current
working directory `cwd`. -/
def resolveP (cwd p : JStr) : JStr :=
  match p with
  | '/' :: _ => normalizeP p
  | _ => normalizeP (cwd ++ '/' :: p)

/-- Boolean string-starts-with, the model of JavaScript `startsWith`. -/
def startsWithJ (pre s : JStr) : Bool := pre.isPrefixOf s

/-- Maximal run of decimal digits at the front of a string, with the rest:
the anchor of the session-format regex and of `parseInt`. -/
def splitDigits : JStr → JStr × JStr
  | [] => ([], [])
  | c :: rest =>
    if isDigitC c then
      let p := splitDigits rest
      (c :: p.1, p.2)
    else ([], c :: rest)

/-- The session-format test `/^\d+-[a-zA-Z0-9]+$/` of the serve-image
route: a nonempty digit run, one dash, a nonempty alphanumeric run. -/
def validSessionFormat (s : JStr) : Bool :=
  let p := splitDigits s
  decide (p.1 ≠ []) &&
    (match p.2 with
     | '-' :: r => decide (r ≠ []) && r.all isAlnumC
     | _ => false)

/-- Decimal value of a digit string. -/
def digitsToNat (ds : JStr) : Nat :=
  ds.foldl (fun a c => 10 * a + (c.toNat - 48)) 0

/-- `parseInt(session.split('-')[0])`: the text before the first dash,
read as a leading decimal number.  (On a string with no leading digit
`parseInt` yields `NaN`; the route only reaches this point after the format
check, where the digit run is nonempty, so totalizing with 0 is harmless.) -/
def parseTimestamp (s : JStr) : Nat :=
  digitsToNat ((s.takeWhile (fun c => c ≠ '-')).takeWhile isDigitC)

/-- `maxAge` of the serve-image route: one hour in milliseconds. -/
def maxAgeMs : Nat := 60 * 60 * 1000

/-- Outcome of a `GET` on the serve-image route.  Constructors carry the
HTTP meaning: 400, 403 (bad session), 410, 403 (bad path), 404, and a
successful read of the file at the carried path.  The fire-and-forget
deletion scheduled on the expired branch and the debug logging have no
bearing on the response and are not modelled. -/
inductive ServeResponse where
  | missingParams
  | invalidSession
  | expired
  | invalidPath
  | notFound
  | serveFile (fullPath : JStr)
deriving DecidableEq

/-- The serve-image `GET` handler.  `imagePath` and `session` are the query
parameters (`none` for an absent parameter), `now` is `Date.now()`,
`tempDir` the temp root picked by the route, and `fsExists` the
`existsSync` oracle on the filesystem. -/
def serveImage (imagePath session : Option JStr) (now : Nat) (tempDir : JStr)
    (fsExists : JStr → Bool) : ServeResponse :=
  match imagePath, session with
  | some ip, some s =>
    if ip = [] ∨ s = [] then .missingParams
    else if validSessionFormat s = false then .invalidSession
    else
      let timestamp := parseTimestamp s
      if (now : Int) - (timestamp : Int) > (maxAgeMs : Int) then .expired
      else
        let safePath := basename ip
        if safePath ≠ ip ∨ containsDotDot safePath = true then .invalidPath
        else
          let fullImagePath := joinP [tempDir, s ++ jstr "-images", safePath]
          if fsExists fullImagePath then .serveFile fullImagePath
          else
            let alternativePaths :=
              [joinP [tempDir, s ++ jstr "-images", jstr "images", safePath],
               joinP [tempDir, s, jstr "images", safePath],
               joinP [tempDir, s, safePath]]
            match alternativePaths.find? fsExists with
            | some foundPath => .serveFile foundPath
            | none => .notFound
  | _, _ => .missingParams

/-- `CLEANUP_AGE_MS` of the cleanup route: one hour in milliseconds. -/
def cleanupAgeMs : Nat := 60 * 60 * 1000

/-- One immediate child of a directory visited by `cleanDirectory`:
its name, its `stat` modification time in epoch milliseconds, and whether
the `unlink` attempt and the recursive-`rm` fallback would succeed on it. -/
structure DirEntry where
  name : String
  mtime : Nat
  unlinkOk : Bool
  rmOk : Bool
deriving DecidableEq

/-- The cleanup route's `cleanDirectory`, with the directory state passed
explicitly: iterates over the children, and for each child older than the
retention window first tries `unlink`, then recursive `rm` on failure, and
swallows the failure of both.  Returns the removed count together with the
directory contents left behind. -/
def cleanDirectory (now : Nat) : List DirEntry → Nat × List DirEntry
  | [] => (0, [])
  | e :: rest =>
    let old := (now : Int) - (e.mtime : Int) > (cleanupAgeMs : Int)
    let removed := if old then e.unlinkOk || e.rmOk else false
    let r := cleanDirectory now rest
    if removed then (r.1 + 1, r.2) else (r.1, e :: r.2)

/-- Whether `cleanDirectory` removes a given child: it is older than the
retention window and one of the two removal attempts succeeds. -/
def entryRemoved (now : Nat) (e : DirEntry) : Bool :=
  (decide ((now : Int) - (e.mtime : Int) > (cleanupAgeMs : Int))) && (e.unlinkOk || e.rmOk)

/-- One entry of the archive built by `createZipFile`: the appended
markdown text, or a file streamed from `srcPath` under archive name
`entryName`. -/
inductive ZipEntry where
  | mdEntry (name : JStr) (content : JStr)
  | fileEntry (srcPath : JStr) (entryName : JStr)
deriving DecidableEq

/-- Body of the image loop of `createZipFile` for one image: the image's
`savedPath` is taken when it is a string (else the empty string),
resolved, checked against the expected image directory by the permissive
prefix test, and appended to the archive as `images/<basename>` whether or
not the check passed; a failed check only records the normalized path in
the warning list (the model of the logged warning). -/
def zipStep (cwd imageDir : JStr) (acc : List ZipEntry × List JStr)
    (image : Option JStr) : List ZipEntry × List JStr :=
  let savedPath := match image with | some s => s | none => []
  let absImagePath := resolveP cwd savedPath
  let absImageDir := resolveP cwd imageDir
  let normalizedImagePath := normalizeP absImagePath
  let normalizedImageDir := normalizeP absImageDir
  let pathCheckPasses :=
    startsWithJ (normalizedImageDir ++ ['/']) normalizedImagePath
      || decide (normalizedImagePath = normalizedImageDir)
      || startsWithJ normalizedImageDir normalizedImagePath
  let warnings := if pathCheckPasses then acc.2 else acc.2 ++ [normalizedImagePath]
  let imageName := basename absImagePath
  (acc.1 ++ [ZipEntry.fileEntry absImagePath (jstr "images/" ++ imageName)], warnings)

/-- The entry-building pass of `createZipFile`: the markdown is appended
first, as `<originalName>.md`, then the image loop runs over every image.
Returns the archive entries together with the warning log. -/
def createZipEntries (markdown originalName : JStr) (images : List (Option JStr))
    (cwd imageDir : JStr) : List ZipEntry × List JStr :=
  images.foldl (zipStep cwd imageDir)
    ([ZipEntry.mdEntry (originalName ++ jstr ".md") markdown], [])

/-- Observable events of one run of `createZipFile`: piping the archive to
the output stream, appending the markdown entry, adding one image entry,
finalizing, the output stream's close event, the archiver's error event,
the start of `cleanupTempFiles` on the staged input and image directory,
and settling the returned promise. -/
inductive ZipEvent where
  | pipeEv
  | appendMarkdown
  | addImage (idx : Nat)
  | finalizeEv
  | closeEv
  | errorEv
  | cleanupStart
  | resolveEv
  | rejectEv
deriving DecidableEq

/-- Event trace of `createZipFile` over `n` images.  The executor pipes,
appends the markdown, adds every image entry, and finalizes; afterwards
either the output stream closes (`fails = false`) or the archiver errors
(`fails = true`), and the registered handler for that outcome starts
`cleanupTempFiles` and only then settles the promise. -/
def createZipTrace (n : Nat) (fails : Bool) : List ZipEvent :=
  [ZipEvent.pipeEv, ZipEvent.appendMarkdown]
    ++ (List.range n).map ZipEvent.addImage
    ++ [ZipEvent.finalizeEv]
    ++ (if fails then [ZipEvent.errorEv, ZipEvent.cleanupStart, ZipEvent.rejectEv]
        else [ZipEvent.closeEv, ZipEvent.cleanupStart, ZipEvent.resolveEv])

/-- Options object passed to the external `convert` call by the `POST`
handler. -/
structure ConvertOptions where
  imageDir : String
  outputDir : String
  preserveLayout : Bool
  extractImages : Bool
  extractCharts : Bool
deriving DecidableEq

/-- `preserveLayoutFlag`: the form field lower-cased equals `"true"`
(an absent field is not equal). -/
def preserveLayoutFlag (v : Option String) : Bool :=
  match v with
  | some s => s.toLower == "true"
  | none => false

/-- `extractImagesFlag`: the form field lower-cased differs from
`"false"` (an absent field differs). -/
def extractImagesFlag (v : Option String) : Bool :=
  match v with
  | some s => !(s.toLower == "false")
  | none => true

/-- `extractChartsFlag`, same rule as `extractImagesFlag`. -/
def extractChartsFlag (v : Option String) : Bool :=
  match v with
  | some s => !(s.toLower == "false")
  | none => true

/-- The options object built at the `convert` call site of the `POST`
handler, from the raw form fields: `preserveLayout` is the parsed flag
or-ed with the constant `true`. -/
def convertOptions (imageDir : String) (preserveLayout? extractImages? extractCharts? : Option String) :
    ConvertOptions :=
  { imageDir := imageDir
    outputDir := imageDir
    preserveLayout := preserveLayoutFlag preserveLayout? || true
    extractImages := extractImagesFlag extractImages?
    extractCharts := extractChartsFlag extractCharts? }

/-- `shouldUseBase64` of the `POST` handler: the serverless markers, the
missing-public-directory probe, and a constant `true` or-ed at the end
(the source comment reads: force it for now to debug).  Environment
variables are modelled by their truthiness. -/
def shouldUseBase64 (vercel vercelEnv publicDirExists : Bool) : Bool :=
  vercel || vercelEnv || !publicDirExists || true

/-- Decimal digit character for `m % 10`, as printed by JavaScript
number-to-string conversion. -/
def decDigitChar (m : Nat) : Char :=
  match m with
  | 0 => '0' | 1 => '1' | 2 => '2' | 3 => '3' | 4 => '4'
  | 5 => '5' | 6 => '6' | 7 => '7' | 8 => '8' | _ => '9'

/-- Digit accumulation loop of decimal printing, carried by an explicit
fuel argument (any fuel at least the digit count yields the full
expansion; the caller passes the number itself, which always suffices). -/
def natDigitsAux : Nat → Nat → JStr → JStr
  | 0, _, acc => acc
  | fuel + 1, n, acc =>
    if n = 0 then acc else natDigitsAux fuel (n / 10) (decDigitChar (n % 10) :: acc)

/-- Decimal printing of a natural number, the `${Date.now()}` part of the
generated file id. -/
def natDigits (n : Nat) : JStr :=
  if n = 0 then ['0'] else natDigitsAux n n []

/-- Base-36 digit character, the alphabet of
`Number.prototype.toString(36)`: `0-9` then `a-z`. -/
def digit36Char (d : Fin 36) : Char :=
  if d.val < 10 then Char.ofNat (48 + d.val) else Char.ofNat (87 + d.val)

/-- `Math.random().toString(36)` for a value in `[0, 1)`, with the random
double abstracted by the base-36 fractional digit list that JavaScript
prints (the empty list standing for the value `0`, printed `"0"`; a
nonzero value prints as `"0."` followed by its digits). -/
def randomToString36 (ds : List (Fin 36)) : JStr :=
  match ds with
  | [] => ['0']
  | _ => '0' :: '.' :: ds.map digit36Char

/-- `Math.random().toString(36).substring(2)`: the printed random value
with the first two characters removed. -/
def sessionSuffix (ds : List (Fin 36)) : JStr :=
  (randomToString36 ds).drop 2

/-- The generated unique file id
`${Date.now()}-${Math.random().toString(36).substring(2)}`. -/
def generateFileId (nowMs : Nat) (ds : List (Fin 36)) : JStr :=
  natDigits nowMs ++ '-' :: sessionSuffix ds

theorem splitSlash_ne_nil (s : JStr) : splitSlash s ≠ [] := by
  cases s with
  | nil => simp [splitSlash]
  | cons c rest =>
    simp only [splitSlash]
    cases h : splitSlash rest with
    | nil => simp
    | cons seg segs => by_cases hc : c = '/' <;> simp [hc]

theorem splitSlash_append (xs ys : JStr) :
    splitSlash (xs ++ '/' :: ys) = splitSlash xs ++ splitSlash ys := by
  induction xs with
  | nil =>
    cases h : splitSlash ys with
    | nil => exact absurd h (splitSlash_ne_nil ys)
    | cons seg segs => simp [splitSlash, h]
  | cons c xs ih =>
    cases h : splitSlash xs with
    | nil => exact absurd h (splitSlash_ne_nil xs)
    | cons seg segs =>
      by_cases hc : c = '/' <;>
        simp [splitSlash, ih, h, hc]

theorem noSlash_nil : noSlash [] = true := rfl

theorem noSlash_cons (c : Char) (s : JStr) :
    noSlash (c :: s) = (!decide (c = '/') && noSlash s) := by
  simp [noSlash]

theorem splitSlash_of_noSlash (s : JStr) (h : noSlash s = true) : splitSlash s = [s] := by
  induction s with
  | nil => rfl
  | cons c rest ih =>
    rw [noSlash_cons, Bool.and_eq_true] at h
    have h1 : ¬ c = '/' := by simpa using h.1
    have h2 : splitSlash rest = [rest] := ih h.2
    simp [splitSlash, h2, h1]

theorem noSlash_of_mem_splitSlash (s : JStr) :
    ∀ seg ∈ splitSlash s, noSlash seg = true := by
  induction s with
  | nil =>
    intro seg h
    simp [splitSlash] at h
    simp [h, noSlash]
  | cons c rest ih =>
    intro seg h
    simp only [splitSlash] at h
    cases hs : splitSlash rest with
    | nil => exact absurd hs (splitSlash_ne_nil rest)
    | cons seg0 segs =>
      rw [hs] at h
      dsimp only at h
      have hseg0 : noSlash seg0 = true := ih seg0 (by rw [hs]; exact List.mem_cons_self _ _)
      by_cases hc : c = '/'
      · rw [if_pos hc] at h
        rcases List.mem_cons.mp h with h1 | h1
        · simp [h1, noSlash]
        · exact ih seg (by rw [hs]; exact h1)
      · rw [if_neg hc] at h
        rcases List.mem_cons.mp h with h1 | h1
        · subst h1
          rw [noSlash_cons, Bool.and_eq_true]
          exact ⟨by simpa using hc, hseg0⟩
        · exact ih seg (by rw [hs]; exact List.mem_cons_of_mem _ h1)

theorem noSlash_getLastD (l : List JStr) (d : JStr) (hd : noSlash d = true)
    (h : ∀ x ∈ l, noSlash x = true) : noSlash (l.getLastD d) = true := by
  induction l generalizing d with
  | nil => simpa [List.getLastD]
  | cons a l ih =>
    rw [List.getLastD_cons]
    exact ih a (h a (List.mem_cons_self _ _)) (fun x hx => h x (List.mem_cons_of_mem _ hx))

theorem basename_noSlash (s : JStr) : noSlash (basename s) = true := by
  unfold basename
  exact noSlash_getLastD _ _ noSlash_nil (noSlash_of_mem_splitSlash _)

theorem isPrefixOf_self_append (a b : JStr) : a.isPrefixOf (a ++ b) = true := by
  induction a with
  | nil => simp [List.isPrefixOf]
  | cons c rest ih => simp [List.isPrefixOf, ih]

theorem intercalateSlash_cons (x : JStr) (xs : List JStr) (h : xs ≠ []) :
    intercalateSlash (x :: xs) = x ++ '/' :: intercalateSlash xs := by
  cases xs with
  | nil => exact absurd rfl h
  | cons y ys => rfl

theorem normSegs_nil (abs : Bool) (acc : List JStr) : normSegs abs acc [] = acc.reverse := by
  simp [normSegs]

theorem normSegs_append_one (abs : Bool) (cs : List JStr) (b : JStr)
    (hb1 : b ≠ []) (hb2 : b ≠ ['.']) (hb3 : b ≠ ['.', '.']) :
    ∀ acc, normSegs abs acc (cs ++ [b]) = normSegs abs acc cs ++ [b] := by
  induction cs with
  | nil =>
    intro acc
    simp only [List.nil_append, normSegs]
    rw [if_neg (not_or.mpr ⟨hb1, hb2⟩), if_neg hb3]
    simp [normSegs]
  | cons seg cs ih =>
    intro acc
    simp only [List.cons_append, normSegs]
    by_cases h1 : seg = [] ∨ seg = ['.']
    · rw [if_pos h1, if_pos h1]
      exact ih acc
    · rw [if_neg h1, if_neg h1]
      by_cases h2 : seg = ['.', '.']
      · rw [if_pos h2, if_pos h2]
        cases acc with
        | nil =>
          dsimp only
          cases abs with
          | true => simpa using ih []
          | false => simpa using ih [['.', '.']]
        | cons top tl =>
          dsimp only
          by_cases h3 : top = ['.', '.']
          · rw [if_pos h3, if_pos h3]
            exact ih _
          · rw [if_neg h3, if_neg h3]
            exact ih tl
      · rw [if_neg h2, if_neg h2]
        exact ih _

theorem normSegs_append_dot (abs : Bool) (cs : List JStr) :
    ∀ acc, normSegs abs acc (cs ++ [['.']]) = normSegs abs acc cs := by
  induction cs with
  | nil =>
    intro acc
    simp [normSegs]
  | cons seg cs ih =>
    intro acc
    simp only [List.cons_append, normSegs]
    by_cases h1 : seg = [] ∨ seg = ['.']
    · rw [if_pos h1, if_pos h1]
      exact ih acc
    · rw [if_neg h1, if_neg h1]
      by_cases h2 : seg = ['.', '.']
      · rw [if_pos h2, if_pos h2]
        cases acc with
        | nil =>
          dsimp only
          cases abs with
          | true => simpa using ih []
          | false => simpa using ih [['.', '.']]
        | cons top tl =>
          dsimp only
          by_cases h3 : top = ['.', '.']
          · rw [if_pos h3, if_pos h3]
            exact ih _
          · rw [if_neg h3, if_neg h3]
            exact ih tl
      · rw [if_neg h2, if_neg h2]
        exact ih _

theorem normSegs_append_chain (abs : Bool) (cs : List JStr) (rest : List JStr)
    (h : ∀ x ∈ rest, x ≠ [] ∧ x ≠ ['.', '.']) :
    ∀ acc, normSegs abs acc (cs ++ rest) =
      normSegs abs acc cs ++ rest.filter (fun x => x ≠ ['.']) := by
  induction rest using List.reverseRecOn with
  | nil => simp
  | append_singleton ys y ih =>
    intro acc
    have hy := h y (by simp)
    have hys : ∀ x ∈ ys, x ≠ [] ∧ x ≠ ['.', '.'] := fun x hx => h x (by simp [hx])
    rw [← List.append_assoc]
    by_cases hdot : y = ['.']
    · subst hdot
      rw [normSegs_append_dot, ih hys acc]
      simp
    · rw [normSegs_append_one abs (cs ++ ys) y hy.1 hdot hy.2, ih hys acc]
      simp [List.filter_append, hdot]

theorem splitSlash_intercalate (ws : List JStr) (hne : ws ≠ [])
    (h : ∀ x ∈ ws, noSlash x = true) :
    splitSlash (intercalateSlash ws) = ws := by
  induction ws with
  | nil => exact absurd rfl hne
  | cons x ws ih =>
    cases ws with
    | nil =>
      simp only [intercalateSlash]
      exact splitSlash_of_noSlash x (h x (by simp))
    | cons y ys =>
      rw [intercalateSlash_cons x (y :: ys) (by simp), splitSlash_append,
        splitSlash_of_noSlash x (h x (by simp)),
        ih (by simp) (fun z hz => h z (List.mem_cons_of_mem _ hz))]
      rfl

theorem intercalateSlash_ext (N : List JStr) (s m : JStr) (tail : List JStr) :
    ∃ ext, intercalateSlash (N ++ (s ++ m) :: tail) = intercalateSlash (N ++ [s]) ++ ext := by
  induction N with
  | nil =>
    cases tail with
    | nil => exact ⟨m, by simp [intercalateSlash]⟩
    | cons t ts =>
      refine ⟨m ++ '/' :: intercalateSlash (t :: ts), ?_⟩
      rw [List.nil_append, List.nil_append, intercalateSlash_cons _ _ (by simp)]
      simp [intercalateSlash]
  | cons n N ih =>
    obtain ⟨ext, hext⟩ := ih
    refine ⟨ext, ?_⟩
    rw [List.cons_append, List.cons_append,
      intercalateSlash_cons n _ (by simp),
      intercalateSlash_cons n _ (by simp), hext]
    simp

theorem intercalateSlash_append_ne_nil (N : List JStr) (s : JStr) (hs : s ≠ []) :
    intercalateSlash (N ++ [s]) ≠ [] := by
  cases N with
  | nil => simpa [intercalateSlash]
  | cons n N =>
    rw [List.cons_append, intercalateSlash_cons n _ (by simp)]
    simp

theorem normalizeP_ext (t s m : JStr) (rest : List JStr)
    (ht : t ≠ [])
    (hs : noSlash s = true) (hs0 : s ≠ []) (hs1 : s ≠ ['.']) (hs2 : s ≠ ['.', '.'])
    (hsm : noSlash (s ++ m) = true) (hsm1 : s ++ m ≠ ['.']) (hsm2 : s ++ m ≠ ['.', '.'])
    (hrest : ∀ x ∈ rest, noSlash x = true ∧ x ≠ [] ∧ x ≠ ['.', '.']) :
    ∃ ext, normalizeP (t ++ '/' :: intercalateSlash ((s ++ m) :: rest)) =
      normalizeP (t ++ '/' :: s) ++ ext := by
  obtain ⟨c, u, rfl⟩ : ∃ c u, t = c :: u := by
    cases t with
    | nil => exact absurd rfl ht
    | cons c u => exact ⟨c, u, rfl⟩
  have hsm0 : s ++ m ≠ [] := by
    intro h
    exact hs0 (List.append_eq_nil.mp h).1
  have hsplit1 : splitSlash ((c :: u) ++ '/' :: intercalateSlash ((s ++ m) :: rest)) =
      splitSlash (c :: u) ++ ((s ++ m) :: rest) := by
    rw [splitSlash_append, splitSlash_intercalate _ (by simp)]
    intro x hx
    rcases List.mem_cons.mp hx with h | h
    · exact h ▸ hsm
    · exact (hrest x h).1
  have hsplitS : splitSlash ((c :: u) ++ '/' :: s) = splitSlash (c :: u) ++ [s] := by
    rw [splitSlash_append, splitSlash_of_noSlash s hs]
  have hchain1 : ∀ ab, normSegs ab [] (splitSlash (c :: u) ++ ((s ++ m) :: rest)) =
      normSegs ab [] (splitSlash (c :: u)) ++
        ((s ++ m) :: rest.filter (fun x => x ≠ ['.'])) := by
    intro ab
    rw [normSegs_append_chain ab _ _ (by
      intro x hx
      rcases List.mem_cons.mp hx with h | h
      · exact h ▸ ⟨hsm0, hsm2⟩
      · exact ⟨(hrest x h).2.1, (hrest x h).2.2⟩)]
    simp [List.filter_cons, hsm1]
  have hchainS : ∀ ab, normSegs ab [] (splitSlash (c :: u) ++ [s]) =
      normSegs ab [] (splitSlash (c :: u)) ++ [s] := by
    intro ab
    rw [normSegs_append_one ab _ s hs0 hs1 hs2]
  obtain ⟨ext, hext⟩ := intercalateSlash_ext (normSegs
    (decide (c = '/')) [] (splitSlash (c :: u))) s m
    (rest.filter (fun x => x ≠ ['.']))
  refine ⟨ext, ?_⟩
  have hbS : intercalateSlash
      ((normSegs (decide (c = '/')) [] (splitSlash (c :: u))) ++ [s]) ≠ [] :=
    intercalateSlash_append_ne_nil _ s hs0
  have hbS2 : intercalateSlash
      ((normSegs (decide (c = '/')) [] (splitSlash (c :: u))) ++ [s]) ++ ext ≠ [] := by
    intro h
    exact hbS (List.append_eq_nil.mp h).1
  simp only [normalizeP, List.cons_append, List.head?_cons, Option.some.injEq]
  rw [← List.cons_append, ← List.cons_append, hsplit1, hsplitS, hchain1, hchainS, hext]
  by_cases hc : c = '/'
  · subst hc
    rw [if_pos rfl, if_pos rfl]
    simp
  · rw [if_neg hc, if_neg hc, if_neg hbS, if_neg hbS2]

theorem normalizeP_ext0 (s m : JStr) (rest : List JStr)
    (hs : noSlash s = true) (hs0 : s ≠ []) (hs1 : s ≠ ['.']) (hs2 : s ≠ ['.', '.'])
    (hsm : noSlash (s ++ m) = true) (hsm1 : s ++ m ≠ ['.']) (hsm2 : s ++ m ≠ ['.', '.'])
    (hrest : ∀ x ∈ rest, noSlash x = true ∧ x ≠ [] ∧ x ≠ ['.', '.']) :
    ∃ ext, normalizeP (intercalateSlash ((s ++ m) :: rest)) = normalizeP s ++ ext := by
  obtain ⟨c, s1, rfl⟩ : ∃ c s1, s = c :: s1 := by
    cases s with
    | nil => exact absurd rfl hs0
    | cons c s1 => exact ⟨c, s1, rfl⟩
  have hc : ¬ c = '/' := by
    rw [noSlash_cons, Bool.and_eq_true] at hs
    simpa using hs.1
  have hsm0 : (c :: s1) ++ m ≠ [] := by simp
  have hhead : (intercalateSlash (((c :: s1) ++ m) :: rest)).head? = some c := by
    cases rest with
    | nil => simp [intercalateSlash]
    | cons r rs =>
      rw [intercalateSlash_cons _ _ (by simp)]
      simp
  have hsplit1 : splitSlash (intercalateSlash (((c :: s1) ++ m) :: rest)) =
      ((c :: s1) ++ m) :: rest := by
    apply splitSlash_intercalate _ (by simp)
    intro x hx
    rcases List.mem_cons.mp hx with h | h
    · exact h ▸ hsm
    · exact (hrest x h).1
  have hchain1 : ∀ ab : Bool, normSegs ab [] (((c :: s1) ++ m) :: rest) =
      ((c :: s1) ++ m) :: rest.filter (fun x => x ≠ ['.']) := by
    intro ab
    have h0 := normSegs_append_chain ab [] ((((c :: s1) ++ m)) :: rest) (by
      intro x hx
      rcases List.mem_cons.mp hx with h | h
      · exact h ▸ ⟨hsm0, hsm2⟩
      · exact ⟨(hrest x h).2.1, (hrest x h).2.2⟩) []
    rw [List.nil_append, normSegs_nil, List.reverse_nil, List.nil_append] at h0
    rw [h0, List.filter_cons, if_pos (show decide ((c :: s1 ++ m) ≠ ['.']) = true from decide_eq_true hsm1)]
  have hchainS : ∀ ab : Bool, normSegs ab [] [c :: s1] = [c :: s1] := by
    intro ab
    have h0 := normSegs_append_one ab [] (c :: s1) (by simp) hs1 hs2 []
    rw [List.nil_append, normSegs_nil, List.reverse_nil, List.nil_append] at h0
    exact h0
  obtain ⟨ext, hext⟩ := intercalateSlash_ext ([] : List JStr) (c :: s1) m
    (rest.filter (fun x => x ≠ ['.']))
  simp only [List.nil_append] at hext
  refine ⟨ext, ?_⟩
  simp only [normalizeP, hhead, List.head?_cons, Option.some.injEq,
    splitSlash_of_noSlash _ hs, hsplit1, hchain1, hchainS]
  rw [if_neg hc, if_neg hc, hext]
  have hb1 : intercalateSlash [c :: s1] ++ ext ≠ [] := by
    simp [intercalateSlash]
  rw [if_neg hb1, if_neg (by simp [intercalateSlash] : ¬ intercalateSlash [c :: s1] = [])]

theorem joinP_sandbox_ext (tempDir s m : JStr) (rest : List JStr)
    (hs : noSlash s = true) (hs0 : s ≠ []) (hs1 : s ≠ ['.']) (hs2 : s ≠ ['.', '.'])
    (hsm : noSlash (s ++ m) = true) (hsm1 : s ++ m ≠ ['.']) (hsm2 : s ++ m ≠ ['.', '.'])
    (hrest : ∀ x ∈ rest, noSlash x = true ∧ x ≠ [] ∧ x ≠ ['.', '.']) :
    ∃ ext, joinP (tempDir :: (s ++ m) :: rest) = joinP [tempDir, s] ++ ext := by
  have hsm0 : s ++ m ≠ [] := by
    intro h
    exact hs0 (List.append_eq_nil.mp h).1
  have hfil : rest.filter (fun p => p ≠ []) = rest :=
    List.filter_eq_self.mpr (fun x hx => by simp [(hrest x hx).2.1])
  by_cases ht : tempDir = []
  · subst ht
    have hf1 : ([] :: (s ++ m) :: rest).filter (fun p => p ≠ []) = (s ++ m) :: rest := by
      rw [List.filter_cons, List.filter_cons, if_neg (by simp), if_pos (by simp [hsm0]), hfil]
    have hf2 : ([[], s] : List JStr).filter (fun p => p ≠ []) = [s] := by
      rw [List.filter_cons, List.filter_cons, if_neg (by simp), if_pos (by simp [hs0])]
      rfl
    have e1 : joinP ([] :: (s ++ m) :: rest) =
        normalizeP (intercalateSlash ((s ++ m) :: rest)) := by
      simp only [joinP, hf1]
    have e2 : joinP [[], s] = normalizeP s := by
      simp only [joinP, hf2, intercalateSlash]
    rw [e1, e2]
    exact normalizeP_ext0 s m rest hs hs0 hs1 hs2 hsm hsm1 hsm2 hrest
  · have hf1 : (tempDir :: (s ++ m) :: rest).filter (fun p => p ≠ []) =
        tempDir :: (s ++ m) :: rest := by
      rw [List.filter_cons, List.filter_cons, if_pos (by simp [ht]), if_pos (by simp [hsm0]), hfil]
    have hf2 : ([tempDir, s] : List JStr).filter (fun p => p ≠ []) = [tempDir, s] := by
      rw [List.filter_cons, List.filter_cons, if_pos (by simp [ht]), if_pos (by simp [hs0])]
      rfl
    have e1 : joinP (tempDir :: (s ++ m) :: rest) =
        normalizeP (tempDir ++ '/' :: intercalateSlash ((s ++ m) :: rest)) := by
      simp only [joinP, hf1]
      rw [intercalateSlash_cons _ _ (by simp)]
    have e2 : joinP [tempDir, s] = normalizeP (tempDir ++ '/' :: s) := by
      simp only [joinP, hf2]
      rfl
    rw [e1, e2]
    exact normalizeP_ext tempDir s m rest ht hs hs0 hs1 hs2 hsm hsm1 hsm2 hrest

theorem splitDigits_append_dash (ds r : JStr) (hd : ∀ c ∈ ds, isDigitC c = true) :
    splitDigits (ds ++ '-' :: r) = (ds, '-' :: r) := by
  induction ds with
  | nil =>
    simp only [List.nil_append, splitDigits]
    rw [if_neg (by decide)]
  | cons d ds ih =>
    simp only [List.cons_append, splitDigits, List.append_eq]
    rw [if_pos (hd d (List.mem_cons_self _ _)), ih (fun c hc => hd c (List.mem_cons_of_mem _ hc))]

theorem validSessionFormat_of_parts (ds r : JStr) (hds : ds ≠ [])
    (hd : ∀ c ∈ ds, isDigitC c = true) (hr : r ≠ []) (hra : r.all isAlnumC = true) :
    validSessionFormat (ds ++ '-' :: r) = true := by
  simp only [validSessionFormat, splitDigits_append_dash ds r hd]
  simp [hds, hr, hra]

theorem takeWhile_ne_dash (ds r : JStr) (hd : ∀ c ∈ ds, ¬ c = '-') :
    (ds ++ '-' :: r).takeWhile (fun c => c ≠ '-') = ds := by
  induction ds with
  | nil => simp [List.takeWhile]
  | cons d ds ih =>
    rw [List.cons_append, List.takeWhile_cons,
      if_pos (by simp [hd d (List.mem_cons_self _ _)]),
      ih (fun c hc => hd c (List.mem_cons_of_mem _ hc))]

theorem takeWhile_digits (ds : JStr) (hd : ∀ c ∈ ds, isDigitC c = true) :
    ds.takeWhile isDigitC = ds := by
  induction ds with
  | nil => simp
  | cons d ds ih =>
    rw [List.takeWhile_cons, if_pos (hd d (List.mem_cons_self _ _)),
      ih (fun c hc => hd c (List.mem_cons_of_mem _ hc))]

theorem digit_ne_dash (c : Char) (h : isDigitC c = true) : ¬ c = '-' := by
  intro he
  subst he
  exact absurd h (by decide)

theorem parseTimestamp_parts (ds r : JStr) (hd : ∀ c ∈ ds, isDigitC c = true) :
    parseTimestamp (ds ++ '-' :: r) = digitsToNat ds := by
  unfold parseTimestamp
  rw [takeWhile_ne_dash ds r (fun c hc => digit_ne_dash c (hd c hc)), takeWhile_digits ds hd]

theorem validSessionFormat_ne_nil (s : JStr) (h : validSessionFormat s = true) : s ≠ [] := by
  intro he
  subst he
  exact absurd h (by decide)

theorem sessionNe_nil (ds r : JStr) (hds : ds ≠ []) : ds ++ '-' :: r ≠ [] := by
  cases ds with
  | nil => exact absurd rfl hds
  | cons d ds => simp

theorem splitDigits_recomb (s : JStr) : (splitDigits s).1 ++ (splitDigits s).2 = s := by
  induction s with
  | nil => rfl
  | cons c rest ih =>
    simp only [splitDigits]
    by_cases hc : isDigitC c
    · rw [if_pos hc]
      simp only [List.cons_append]
      rw [ih]
    · rw [if_neg hc]
      rfl

theorem splitDigits_digits (s : JStr) : ∀ c ∈ (splitDigits s).1, isDigitC c = true := by
  induction s with
  | nil => intro c hc; simp [splitDigits] at hc
  | cons c rest ih =>
    intro d hd
    simp only [splitDigits] at hd
    by_cases hc : isDigitC c
    · rw [if_pos hc] at hd
      rcases List.mem_cons.mp hd with h | h
      · exact h ▸ hc
      · exact ih d h
    · rw [if_neg hc] at hd
      simp at hd

theorem validSessionFormat_parts (s : JStr) (h : validSessionFormat s = true) :
    ∃ ds r, s = ds ++ '-' :: r ∧ ds ≠ [] ∧ (∀ c ∈ ds, isDigitC c = true) ∧
      r ≠ [] ∧ r.all isAlnumC = true := by
  unfold validSessionFormat at h
  rw [Bool.and_eq_true] at h
  obtain ⟨h1, h2⟩ := h
  have hne : (splitDigits s).1 ≠ [] := by simpa using h1
  cases hp2 : (splitDigits s).2 with
  | nil =>
    rw [hp2] at h2
    exact absurd h2 (by simp)
  | cons c2 r =>
    rw [hp2] at h2
    by_cases hc2 : c2 = '-'
    · subst hc2
      simp only [Bool.and_eq_true, decide_eq_true_eq] at h2
      refine ⟨(splitDigits s).1, r, ?_, hne, splitDigits_digits s, h2.1, h2.2⟩
      have hrec := splitDigits_recomb s
      rw [hp2] at hrec
      exact hrec.symm
    · exfalso
      revert h2
      simp [hc2]

theorem noSlash_iff (s : JStr) : noSlash s = true ↔ ∀ c ∈ s, ¬ c = '/' := by
  simp [noSlash, List.all_eq_true]

theorem validSession_shape (s : JStr) (h : validSessionFormat s = true) (m : JStr)
    (hm : ∀ c ∈ m, ¬ c = '/') :
    noSlash (s ++ m) = true ∧ s ++ m ≠ [] ∧ s ++ m ≠ ['.'] ∧ s ++ m ≠ ['.', '.'] := by
  obtain ⟨ds, r, rfl, hds, hd, hr, hra⟩ := validSessionFormat_parts s h
  obtain ⟨d, ds1, rfl⟩ : ∃ d ds1, ds = d :: ds1 := by
    cases ds with
    | nil => exact absurd rfl hds
    | cons d ds1 => exact ⟨d, ds1, rfl⟩
  have hdd : isDigitC d = true := hd d (List.mem_cons_self _ _)
  have hddot : ¬ d = '.' := by
    intro he
    subst he
    exact absurd hdd (by decide)
  have hcons : ((d :: ds1) ++ '-' :: r) ++ m = d :: (ds1 ++ '-' :: r ++ m) := by simp
  rw [hcons]
  refine ⟨?_, by simp, ?_, ?_⟩
  · rw [noSlash_iff]
    intro c hc
    rcases List.mem_cons.mp hc with h1 | h1
    · subst h1
      intro he
      subst he
      exact absurd hdd (by decide)
    · rcases List.mem_append.mp h1 with h2 | h2
      · rcases List.mem_append.mp h2 with h3 | h3
        · exact fun he => absurd (hd c (List.mem_cons_of_mem _ h3)) (by subst he; decide)
        · rcases List.mem_cons.mp h3 with h4 | h4
          · subst h4
            decide
          · have := (List.all_eq_true.mp hra) c h4
            intro he
            subst he
            exact absurd (by simpa using this) (by decide)
      · exact hm c h2
  · intro he
    rw [List.cons_eq_cons] at he
    exact hddot he.1
  · intro he
    rw [List.cons_eq_cons] at he
    exact hddot he.1

theorem containsDotDot_ne (s : JStr) (h : containsDotDot s = false) : s ≠ ['.', '.'] := by
  intro he
  subst he
  exact absurd h (by decide)

theorem imagesSeg_noSlash : ∀ c ∈ jstr "images", ¬ c = '/' := by decide

theorem dashImagesSeg_noSlash : ∀ c ∈ jstr "-images", ¬ c = '/' := by decide

theorem imagesSeg_facts : jstr "images" ≠ [] ∧ jstr "images" ≠ ['.', '.'] ∧
    noSlash (jstr "images") = true := by decide

/-- C1: on the artifact-serving route, once a request has passed the
parameter, session-format and expiry gates, any requested path whose base
name differs from the raw input or whose base name still contains two
consecutive dots is answered with the 403 invalid-path response, for every
state of the filesystem oracle (so before the filesystem is consulted);
and every path the route ever serves, through the primary layout or any of
the alternative layouts, extends the temp directory joined with the
session id as a string prefix. -/
theorem serveImage_traversal_safe :
    (∀ (ip s tempDir : JStr) (now : Nat) (fsE : JStr → Bool),
      ip ≠ [] → validSessionFormat s = true →
      (now : Int) - (parseTimestamp s : Int) ≤ (maxAgeMs : Int) →
      (basename ip ≠ ip ∨ containsDotDot (basename ip) = true) →
      serveImage (some ip) (some s) now tempDir fsE = ServeResponse.invalidPath)
    ∧ (∀ (ip s tempDir : JStr) (now : Nat) (fsE : JStr → Bool) (p : JStr),
      serveImage (some ip) (some s) now tempDir fsE = ServeResponse.serveFile p →
      startsWithJ (joinP [tempDir, s]) p = true) := by
  constructor
  · intro ip s tempDir now fsE hip hval hexp hbad
    have hsne := validSessionFormat_ne_nil s hval
    simp only [serveImage]
    rw [if_neg (by simp [hip, hsne]), if_neg (by simp [hval]), if_neg (not_lt.mpr hexp),
      if_pos hbad]
  · intro ip s tempDir now fsE p hp
    simp only [serveImage] at hp
    by_cases h0 : ip = [] ∨ s = []
    · rw [if_pos h0] at hp
      exact absurd hp (by simp)
    · rw [if_neg h0] at hp
      by_cases h1 : validSessionFormat s = false
      · rw [if_pos h1] at hp
        exact absurd hp (by simp)
      · rw [if_neg h1] at hp
        have hval : validSessionFormat s = true := by
          cases hvv : validSessionFormat s
          · exact absurd hvv h1
          · rfl
        by_cases h2 : (now : Int) - (parseTimestamp s : Int) > (maxAgeMs : Int)
        · rw [if_pos h2] at hp
          exact absurd hp (by simp)
        · rw [if_neg h2] at hp
          by_cases h3 : basename ip ≠ ip ∨ containsDotDot (basename ip) = true
          · rw [if_pos h3] at hp
            exact absurd hp (by simp)
          · rw [if_neg h3] at hp
            have hbn : basename ip = ip := by
              by_contra hne
              exact h3 (Or.inl hne)
            have hdd : containsDotDot ip = false := by
              cases hdv : containsDotDot (basename ip)
              · rw [← hbn, hdv]
              · exact absurd (Or.inr hdv) h3
            have hip : ip ≠ [] := fun he => h0 (Or.inl he)
            have hipns : noSlash ip = true := hbn ▸ basename_noSlash ip
            have hipdd : ip ≠ ['.', '.'] := containsDotDot_ne ip hdd
            have hsm := validSession_shape s hval (jstr "-images") dashImagesSeg_noSlash
            have hs0 := validSession_shape s hval [] (by simp)
            rw [List.append_nil] at hs0
            have hrest1 : ∀ x ∈ [ip], noSlash x = true ∧ x ≠ [] ∧ x ≠ ['.', '.'] := by
              intro x hx
              rw [List.mem_singleton] at hx
              subst hx
              exact ⟨hipns, hip, hipdd⟩
            have hrest2 : ∀ x ∈ [jstr "images", ip],
                noSlash x = true ∧ x ≠ [] ∧ x ≠ ['.', '.'] := by
              intro x hx
              rcases List.mem_cons.mp hx with h | h
              · subst h
                exact ⟨imagesSeg_facts.2.2, imagesSeg_facts.1, imagesSeg_facts.2.1⟩
              · rw [List.mem_singleton] at h
                subst h
                exact ⟨hipns, hip, hipdd⟩
            by_cases h4 : fsE (joinP [tempDir, s ++ jstr "-images", basename ip]) = true
            · rw [if_pos h4] at hp
              have hpe : joinP [tempDir, s ++ jstr "-images", basename ip] = p := by
                injection hp
              obtain ⟨ext, hext⟩ := joinP_sandbox_ext tempDir s (jstr "-images") [basename ip]
                hs0.1 hs0.2.1 hs0.2.2.1 hs0.2.2.2 hsm.1 hsm.2.2.1 hsm.2.2.2 (by
                  intro x hx
                  rw [List.mem_singleton] at hx
                  subst hx
                  rw [hbn]
                  exact ⟨hipns, hip, hipdd⟩)
              rw [← hpe, hext]
              unfold startsWithJ
              exact isPrefixOf_self_append _ _
            · rw [if_neg h4] at hp
              cases hf : List.find? fsE
                  [joinP [tempDir, s ++ jstr "-images", jstr "images", basename ip],
                   joinP [tempDir, s, jstr "images", basename ip],
                   joinP [tempDir, s, basename ip]] with
              | none =>
                rw [hf] at hp
                exact absurd hp (by simp)
              | some q =>
                rw [hf] at hp
                dsimp only at hp
                have hqp : q = p := by injection hp
                have hmem := List.mem_of_find?_eq_some hf
                rw [hbn] at hmem
                simp only [List.mem_cons, List.mem_singleton, List.not_mem_nil, or_false] at hmem
                subst hqp
                rcases hmem with h | h | h
                · obtain ⟨ext, hext⟩ := joinP_sandbox_ext tempDir s (jstr "-images")
                    [jstr "images", ip]
                    hs0.1 hs0.2.1 hs0.2.2.1 hs0.2.2.2 hsm.1 hsm.2.2.1 hsm.2.2.2 hrest2
                  rw [h, hext]
                  unfold startsWithJ
                  exact isPrefixOf_self_append _ _
                · obtain ⟨ext, hext⟩ := joinP_sandbox_ext tempDir s [] [jstr "images", ip]
                    hs0.1 hs0.2.1 hs0.2.2.1 hs0.2.2.2
                    (by rw [List.append_nil]; exact hs0.1)
                    (by rw [List.append_nil]; exact hs0.2.2.1)
                    (by rw [List.append_nil]; exact hs0.2.2.2) hrest2
                  rw [List.append_nil] at hext
                  rw [h, hext]
                  unfold startsWithJ
                  exact isPrefixOf_self_append _ _
                · obtain ⟨ext, hext⟩ := joinP_sandbox_ext tempDir s [] [ip]
                    hs0.1 hs0.2.1 hs0.2.2.1 hs0.2.2.2
                    (by rw [List.append_nil]; exact hs0.1)
                    (by rw [List.append_nil]; exact hs0.2.2.1)
                    (by rw [List.append_nil]; exact hs0.2.2.2) hrest1
                  rw [List.append_nil] at hext
                  rw [h, hext]
                  unfold startsWithJ
                  exact isPrefixOf_self_append _ _

theorem serveImage_expired_iff (ds r ip tempDir : JStr) (now : Nat) (fsE : JStr → Bool)
    (hds : ds ≠ []) (hd : ∀ c ∈ ds, isDigitC c = true) (hr : r ≠ [])
    (hra : r.all isAlnumC = true) (hip : ip ≠ []) :
    serveImage (some ip) (some (ds ++ '-' :: r)) now tempDir fsE = ServeResponse.expired
      ↔ (now : Int) - (digitsToNat ds : Int) > (maxAgeMs : Int) := by
  have hval := validSessionFormat_of_parts ds r hds hd hr hra
  have hsne := sessionNe_nil ds r hds
  have hpt := parseTimestamp_parts ds r hd
  simp only [serveImage]
  rw [if_neg (by simp [hip, hsne]), if_neg (by simp [hval]), hpt]
  constructor
  · intro hp
    by_cases hgt : (now : Int) - (digitsToNat ds : Int) > (maxAgeMs : Int)
    · exact hgt
    · rw [if_neg hgt] at hp
      exfalso
      split at hp
      · exact absurd hp (by simp)
      · split at hp
        · exact absurd hp (by simp)
        · split at hp
          · exact absurd hp (by simp)
          · exact absurd hp (by simp)
  · intro hgt
    rw [if_pos hgt]

/-- C2: for every syntactically valid session id of the form `t-r`
presented with a path parameter, the route answers with the 410 expired
response exactly when `now - t` exceeds the one-hour retention window,
independently of the filesystem (no file bytes are read even if the file
exists); and at `now - t` equal to the window minus one millisecond the
request passes the expiry check. -/
theorem serveImage_expiry_boundary (ds r ip tempDir : JStr) (now : Nat) (fsE : JStr → Bool)
    (hds : ds ≠ []) (hd : ∀ c ∈ ds, isDigitC c = true) (hr : r ≠ [])
    (hra : r.all isAlnumC = true) (hip : ip ≠ []) :
    (serveImage (some ip) (some (ds ++ '-' :: r)) now tempDir fsE = ServeResponse.expired
      ↔ (now : Int) - (digitsToNat ds : Int) > (maxAgeMs : Int))
    ∧ ((now : Int) - (digitsToNat ds : Int) = (maxAgeMs : Int) - 1 →
        serveImage (some ip) (some (ds ++ '-' :: r)) now tempDir fsE ≠ ServeResponse.expired) := by
  refine ⟨serveImage_expired_iff ds r ip tempDir now fsE hds hd hr hra hip, ?_⟩
  intro hb he
  have := (serveImage_expired_iff ds r ip tempDir now fsE hds hd hr hra hip).mp he
  omega

theorem serveImage_expiry_boundary_witness :
    serveImage (some (jstr "a.png")) (some (jstr "1000" ++ '-' :: jstr "abc")) 3601001
      (jstr "/tmp") (fun _ => true) = ServeResponse.expired
    ∧ serveImage (some (jstr "a.png")) (some (jstr "1000" ++ '-' :: jstr "abc")) 3600999
      (jstr "/tmp") (fun _ => true) ≠ ServeResponse.expired :=
  ⟨(serveImage_expiry_boundary (jstr "1000") (jstr "abc") (jstr "a.png") (jstr "/tmp") 3601001
      (fun _ => true) (by decide) (by decide) (by decide) (by decide) (by decide)).1.mpr (by decide),
   (serveImage_expiry_boundary (jstr "1000") (jstr "abc") (jstr "a.png") (jstr "/tmp") 3600999
      (fun _ => true) (by decide) (by decide) (by decide) (by decide) (by decide)).2 (by decide)⟩

/-- C10: a session id matching the format regex whose numeric timestamp
prefix lies at or beyond `now` is never classified as expired, however far
in the future it lies; with a clean single-segment path and an existing
file the request proceeds all the way to serving the file. -/
theorem serveImage_future_timestamp (ds r ip tempDir : JStr) (now : Nat) (fsE : JStr → Bool)
    (hds : ds ≠ []) (hd : ∀ c ∈ ds, isDigitC c = true) (hr : r ≠ [])
    (hra : r.all isAlnumC = true) (hip : ip ≠ [])
    (hfuture : now ≤ digitsToNat ds) :
    serveImage (some ip) (some (ds ++ '-' :: r)) now tempDir fsE ≠ ServeResponse.expired
    ∧ (basename ip = ip → containsDotDot ip = false →
        fsE (joinP [tempDir, (ds ++ '-' :: r) ++ jstr "-images", ip]) = true →
        serveImage (some ip) (some (ds ++ '-' :: r)) now tempDir fsE =
          ServeResponse.serveFile (joinP [tempDir, (ds ++ '-' :: r) ++ jstr "-images", ip])) := by
  have hval := validSessionFormat_of_parts ds r hds hd hr hra
  have hsne := sessionNe_nil ds r hds
  have hpt := parseTimestamp_parts ds r hd
  have hngt : ¬ ((now : Int) - (digitsToNat ds : Int) > (maxAgeMs : Int)) := by omega
  constructor
  · intro he
    exact hngt ((serveImage_expired_iff ds r ip tempDir now fsE hds hd hr hra hip).mp he)
  · intro hbn hdd hfs
    simp only [serveImage]
    rw [if_neg (by simp [hip, hsne]), if_neg (by simp [hval]), hpt, if_neg hngt,
      if_neg (by rw [hbn]; simp [hdd]), if_pos (by rw [hbn]; exact hfs)]
    rw [hbn]

theorem serveImage_future_timestamp_witness :
    serveImage (some (jstr "a.png")) (some (jstr "99999999999999999" ++ '-' :: jstr "x")) 0
      (jstr "/tmp") (fun _ => true) ≠ ServeResponse.expired
    ∧ serveImage (some (jstr "a.png")) (some (jstr "99999999999999999" ++ '-' :: jstr "x")) 0
      (jstr "/tmp") (fun _ => true) =
        ServeResponse.serveFile (joinP [jstr "/tmp",
          (jstr "99999999999999999" ++ '-' :: jstr "x") ++ jstr "-images", jstr "a.png"]) :=
  ⟨(serveImage_future_timestamp (jstr "99999999999999999") (jstr "x") (jstr "a.png") (jstr "/tmp")
      0 (fun _ => true) (by decide) (by decide) (by decide) (by decide) (by decide) (by decide)).1,
   (serveImage_future_timestamp (jstr "99999999999999999") (jstr "x") (jstr "a.png") (jstr "/tmp")
      0 (fun _ => true) (by decide) (by decide) (by decide) (by decide) (by decide) (by decide)).2
      (by decide) (by decide) rfl⟩

theorem serveImage_traversal_safe_witness :
    serveImage (some (jstr "../../etc/passwd")) (some (jstr "123-abc")) 123 (jstr "/tmp")
      (fun _ => true) = ServeResponse.invalidPath
    ∧ startsWithJ (joinP [jstr "/tmp", jstr "123-abc"]) (jstr "/tmp/123-abc-images/a.png") = true :=
  ⟨serveImage_traversal_safe.1 (jstr "../../etc/passwd") (jstr "123-abc") (jstr "/tmp") 123
      (fun _ => true) (by decide) (by decide) (by decide) (by decide),
   serveImage_traversal_safe.2 (jstr "a.png") (jstr "123-abc") (jstr "/tmp") 123 (fun _ => true)
      (jstr "/tmp/123-abc-images/a.png") (by decide)⟩

theorem cleanDirectory_eq (now : Nat) (l : List DirEntry) :
    cleanDirectory now l =
      (l.countP (entryRemoved now), l.filter (fun e => !entryRemoved now e)) := by
  induction l with
  | nil => rfl
  | cons e rest ih =>
    have hit : (if (now : Int) - (e.mtime : Int) > (cleanupAgeMs : Int)
        then e.unlinkOk || e.rmOk else false) = entryRemoved now e := by
      unfold entryRemoved
      by_cases h : (now : Int) - (e.mtime : Int) > (cleanupAgeMs : Int)
      · simp [h]
      · simp [h]
    simp only [cleanDirectory, ih, hit]
    by_cases h : entryRemoved now e = true
    · simp [h, List.countP_cons, List.filter_cons]
    · simp [h, List.countP_cons, List.filter_cons]

/-- C5: during a sweep, a child older than the retention window on which
both the unlink attempt and the recursive-rm fallback fail is left in
place and not counted, and the sweep of the siblings before and after it
proceeds exactly as it would on them alone: no single failure aborts the
iteration. -/
theorem cleanDirectory_failure_isolated (now : Nat) (pre post : List DirEntry) (e : DirEntry)
    (_hold : (now : Int) - (e.mtime : Int) > (cleanupAgeMs : Int))
    (hunlink : e.unlinkOk = false) (hrm : e.rmOk = false) :
    cleanDirectory now (pre ++ e :: post) =
      ((cleanDirectory now pre).1 + (cleanDirectory now post).1,
       (cleanDirectory now pre).2 ++ e :: (cleanDirectory now post).2) := by
  have hre : entryRemoved now e = false := by simp [entryRemoved, hunlink, hrm]
  rw [cleanDirectory_eq, cleanDirectory_eq, cleanDirectory_eq]
  simp [List.countP_append, List.countP_cons, List.filter_append, List.filter_cons, hre]

theorem cleanDirectory_failure_isolated_witness :
    cleanDirectory 7200001
      [⟨"young.md", 7200000, true, true⟩, ⟨"stuck", 0, false, false⟩, ⟨"old.md", 0, true, false⟩] =
      (1, [⟨"young.md", 7200000, true, true⟩, ⟨"stuck", 0, false, false⟩]) :=
  (cleanDirectory_failure_isolated 7200001 [⟨"young.md", 7200000, true, true⟩]
    [⟨"old.md", 0, true, false⟩] ⟨"stuck", 0, false, false⟩ (by decide) rfl rfl).trans (by decide)

/-- C6: sweeping a directory holding exactly two entries, one aged the
retention window minus one second and one aged the retention window plus
one second, removes exactly the older entry, leaves the younger in place,
and reports a removed count of 1. -/
theorem cleanDirectory_boundary_sweep :
    cleanDirectory 4000000
      [⟨"fresh.md", 401000, true, true⟩, ⟨"stale.md", 399000, true, true⟩] =
      (1, [⟨"fresh.md", 401000, true, true⟩]) := by decide

/-- C7 (counterexample): in the trace where the archiver errors, cleanup
of the staged input and image directory starts although the output
stream close event never occurs, so the packaging completion signal does
not fire before every cleanup. -/
theorem createZipTrace_error_counterexample :
    ZipEvent.cleanupStart ∈ createZipTrace 0 true
    ∧ ZipEvent.closeEv ∉ createZipTrace 0 true := by decide

/-- C7 (amended): in every trace of `createZipFile`, the cleanup of the
staged input file and image directory starts only strictly after the
terminal packaging signal, which is the output stream close event when no
error occurs and the archiver error event otherwise; cleanup is never
initiated while the packager may still read from those files. -/
theorem createZipTrace_cleanup_after_signal (n : Nat) (fails : Bool) :
    ∃ pre post, createZipTrace n fails =
        pre ++ (if fails then ZipEvent.errorEv else ZipEvent.closeEv) ::
          ZipEvent.cleanupStart :: post
      ∧ ZipEvent.cleanupStart ∉ pre ∧ ZipEvent.cleanupStart ∉ post := by
  refine ⟨[ZipEvent.pipeEv, ZipEvent.appendMarkdown] ++ (List.range n).map ZipEvent.addImage
    ++ [ZipEvent.finalizeEv], [if fails then ZipEvent.rejectEv else ZipEvent.resolveEv],
    ?_, ?_, ?_⟩
  · cases fails <;> simp [createZipTrace]
  · simp
  · cases fails <;> simp

theorem zipStep_fst (cwd imageDir : JStr) (acc : List ZipEntry × List JStr)
    (image : Option JStr) :
    (zipStep cwd imageDir acc image).1 =
      acc.1 ++ [ZipEntry.fileEntry (resolveP cwd (image.getD []))
        (jstr "images/" ++ basename (resolveP cwd (image.getD [])))] := by
  cases image <;> rfl

theorem createZipEntries_fold_fst (cwd imageDir : JStr) :
    ∀ (images : List (Option JStr)) (init : List ZipEntry × List JStr),
      (images.foldl (zipStep cwd imageDir) init).1 =
        init.1 ++ images.map (fun image => ZipEntry.fileEntry (resolveP cwd (image.getD []))
          (jstr "images/" ++ basename (resolveP cwd (image.getD [])))) := by
  intro images
  induction images with
  | nil =>
    intro init
    simp
  | cons i is ih =>
    intro init
    rw [List.foldl_cons, ih, zipStep_fst]
    simp

/-- C8: the packager always emits the markdown as the single leading
entry `<originalName>.md` followed by one entry
`images/<basename of the resolved saved path>` per image in order; the
entry list does not depend on the directory used by the permissive prefix
check, and in particular every image with a nonempty string saved path
contributes its entry whether or not the check passes. -/
theorem createZipEntries_includes_all (markdown originalName : JStr)
    (images : List (Option JStr)) (cwd imageDir : JStr) :
    ((createZipEntries markdown originalName images cwd imageDir).1 =
      ZipEntry.mdEntry (originalName ++ jstr ".md") markdown ::
        images.map (fun image => ZipEntry.fileEntry (resolveP cwd (image.getD []))
          (jstr "images/" ++ basename (resolveP cwd (image.getD [])))))
    ∧ (∀ imageDir2, (createZipEntries markdown originalName images cwd imageDir).1 =
        (createZipEntries markdown originalName images cwd imageDir2).1)
    ∧ (∀ sp, some sp ∈ images → sp ≠ [] →
        ZipEntry.fileEntry (resolveP cwd sp) (jstr "images/" ++ basename (resolveP cwd sp)) ∈
          (createZipEntries markdown originalName images cwd imageDir).1) := by
  have h1 : (createZipEntries markdown originalName images cwd imageDir).1 =
      ZipEntry.mdEntry (originalName ++ jstr ".md") markdown ::
        images.map (fun image => ZipEntry.fileEntry (resolveP cwd (image.getD []))
          (jstr "images/" ++ basename (resolveP cwd (image.getD [])))) := by
    unfold createZipEntries
    rw [createZipEntries_fold_fst]
    rfl
  refine ⟨h1, ?_, ?_⟩
  · intro imageDir2
    rw [h1]
    unfold createZipEntries
    rw [createZipEntries_fold_fst]
    rfl
  · intro sp hm hne
    rw [h1]
    exact List.mem_cons_of_mem _ (List.mem_map.mpr ⟨some sp, hm, rfl⟩)

theorem createZipEntries_includes_all_witness :
    ZipEntry.fileEntry (resolveP (jstr "/w") (jstr "a.png"))
        (jstr "images/" ++ basename (resolveP (jstr "/w") (jstr "a.png"))) ∈
      (createZipEntries (jstr "# t") (jstr "doc") [some (jstr "a.png")] (jstr "/w")
        (jstr "/w/img")).1 :=
  (createZipEntries_includes_all (jstr "# t") (jstr "doc") [some (jstr "a.png")] (jstr "/w")
    (jstr "/w/img")).2.2 (jstr "a.png") (by decide) (by decide)

/-- C9: the options passed to the external converter always carry
`preserveLayout = true`, whatever the `preserveLayout` form field holds
(including an explicit false), because the parsed flag is or-ed with a
constant true; two requests that differ only in that field pass
identical options to the converter. -/
theorem convertOptions_preserveLayout_constant (imageDir : String)
    (p1 p2 ei ec : Option String) :
    convertOptions imageDir p1 ei ec = convertOptions imageDir p2 ei ec
    ∧ (convertOptions imageDir p1 ei ec).preserveLayout = true := by
  constructor
  · simp [convertOptions, Bool.or_true]
  · simp [convertOptions, Bool.or_true]

/-- C4: the output-mode capability probe selects inline (base64) mode
even when no serverless marker is set and the public directory exists --
the input on which the spec's policy selects disk mode -- because the
probed disjunction ends in a constant true; it returns true on every
input. -/
theorem shouldUseBase64_always_true :
    shouldUseBase64 false false true = true ∧ ∀ v ve pe, shouldUseBase64 v ve pe = true := by
  refine ⟨rfl, ?_⟩
  intro v ve pe
  simp [shouldUseBase64]

theorem isDigitC_decDigitChar (m : Nat) : isDigitC (decDigitChar m) = true := by
  rcases m with _|_|_|_|_|_|_|_|_|m <;> rfl

theorem natDigitsAux_digits : ∀ (fuel n : Nat) (acc : JStr),
    (∀ c ∈ acc, isDigitC c = true) → ∀ c ∈ natDigitsAux fuel n acc, isDigitC c = true := by
  intro fuel
  induction fuel with
  | zero =>
    intro n acc hacc c hc
    exact hacc c hc
  | succ f ih =>
    intro n acc hacc c hc
    simp only [natDigitsAux] at hc
    by_cases hn : n = 0
    · rw [if_pos hn] at hc
      exact hacc c hc
    · rw [if_neg hn] at hc
      refine ih (n / 10) _ ?_ c hc
      intro d hd
      rcases List.mem_cons.mp hd with h | h
      · exact h ▸ isDigitC_decDigitChar _
      · exact hacc d h

theorem natDigitsAux_suffix : ∀ (fuel n : Nat) (acc : JStr),
    ∃ pre, natDigitsAux fuel n acc = pre ++ acc := by
  intro fuel
  induction fuel with
  | zero =>
    intro n acc
    exact ⟨[], rfl⟩
  | succ f ih =>
    intro n acc
    simp only [natDigitsAux]
    by_cases hn : n = 0
    · rw [if_pos hn]
      exact ⟨[], rfl⟩
    · rw [if_neg hn]
      obtain ⟨pre, hpre⟩ := ih (n / 10) (decDigitChar (n % 10) :: acc)
      exact ⟨pre ++ [decDigitChar (n % 10)], by simp [hpre]⟩

theorem natDigits_digits (n : Nat) : ∀ c ∈ natDigits n, isDigitC c = true := by
  unfold natDigits
  by_cases h : n = 0
  · rw [if_pos h]
    intro c hc
    rw [List.mem_singleton] at hc
    subst hc
    decide
  · rw [if_neg h]
    exact natDigitsAux_digits n n [] (by simp)

theorem natDigits_ne_nil (n : Nat) : natDigits n ≠ [] := by
  unfold natDigits
  by_cases h : n = 0
  · rw [if_pos h]
    simp
  · rw [if_neg h]
    obtain ⟨m, rfl⟩ : ∃ m, n = m + 1 := ⟨n - 1, by omega⟩
    simp only [natDigitsAux]
    rw [if_neg h]
    obtain ⟨pre, hpre⟩ := natDigitsAux_suffix m ((m + 1) / 10) [decDigitChar ((m + 1) % 10)]
    rw [hpre]
    simp

theorem digit36Char_base36 : ∀ d : Fin 36, isBase36C (digit36Char d) = true := by decide

theorem digit36Char_alnum : ∀ d : Fin 36, isAlnumC (digit36Char d) = true := by decide

theorem sessionSuffix_map (d : Fin 36) (dtl : List (Fin 36)) :
    sessionSuffix (d :: dtl) = (d :: dtl).map digit36Char := rfl

/-- C3 (counterexample): for the random value 0.5 (base-36 expansion
`i`) the generated suffix is the single character `i`, far shorter than
six characters, and for the random value 0 the suffix is empty, so the
generated id does not even match `^\d+-[A-Za-z0-9]+$`. -/
theorem generateFileId_claim_counterexample :
    sessionSuffix [(18 : Fin 36)] = ['i']
    ∧ ¬ (6 ≤ (sessionSuffix [(18 : Fin 36)]).length)
    ∧ validSessionFormat (generateFileId 1755063487275 []) = false := by decide

/-- C3 (amended): every generated id consists of decimal digits, a dash,
and a suffix drawn from the 36-symbol alphabet `0-9a-z` (whose 36 symbols
are pairwise distinct); whenever the random value's printed expansion is
nonempty the id matches `^\d+-[A-Za-z0-9]+$`.  No lower bound on the
suffix length holds. -/
theorem generateFileId_amended :
    (∀ (nowMs : Nat) (ds : List (Fin 36)),
      (∀ c ∈ natDigits nowMs, isDigitC c = true)
      ∧ (∀ c ∈ sessionSuffix ds, isBase36C c = true)
      ∧ (ds ≠ [] → validSessionFormat (generateFileId nowMs ds) = true))
    ∧ ((List.finRange 36).map digit36Char).Nodup := by
  constructor
  · intro nowMs ds
    refine ⟨natDigits_digits nowMs, ?_, ?_⟩
    · intro c hc
      cases ds with
      | nil => simp [sessionSuffix, randomToString36] at hc
      | cons d dtl =>
        rw [sessionSuffix_map] at hc
        obtain ⟨d0, _, rfl⟩ := List.mem_map.mp hc
        exact digit36Char_base36 d0
    · intro hne
      unfold generateFileId
      obtain ⟨d, dtl, rfl⟩ : ∃ d dtl, ds = d :: dtl := by
        cases ds with
        | nil => exact absurd rfl hne
        | cons d dtl => exact ⟨d, dtl, rfl⟩
      rw [sessionSuffix_map]
      exact validSessionFormat_of_parts _ _ (natDigits_ne_nil _) (natDigits_digits _)
        (by simp) (List.all_eq_true.mpr (by
          intro c hc
          obtain ⟨d0, _, rfl⟩ := List.mem_map.mp hc
          simpa using digit36Char_alnum d0))
  · decide

theorem generateFileId_amended_witness :
    validSessionFormat (generateFileId 1700000000000
      [(10 : Fin 36), 11, 12, 13, 14, 15]) = true :=
  (generateFileId_amended.1 1700000000000 [10, 11, 12, 13, 14, 15]).2.2 (by decide)
